import Mathlib

/-!
Verification of the batch-construction layer in `src/datamodule/samplers.py`
(`ByFrameCountSampler`, `ByFrameCountSamplerMultilang`, `DatasetFromSampler`,
`DistributedSamplerWrapper`, `RandomSamplerWrapper`).

Conventions of the shallow embedding:
* The item collection is given by its cost list `sizes : List Nat`
  (`self.sizes = [item[2] for item in self.dataset.list]`); in the
  multilingual variant an item is a pair `(cost, category)`
  (`item[2]`, `item[3][0].item()`).
* `torch.randperm(n, generator=g)` with a fresh generator seeded by
  `seed + epoch` is modelled by an oracle `rp : Nat → Nat → List Nat`
  applied at `(seed + epoch, n)`: the generator is created and seeded
  locally, so the drawn permutation is a pure function of the seed value
  and the length.  Where an argument needs it, the hypothesis that
  `rp s n` is a permutation of `range n` is made explicit.
* `np.lexsort([tiebreak, sizes])` is a stable ascending sort of the index
  range by the key pair (primary `sizes[i]`, secondary `tiebreak[i]`);
  it is embedded with `List.insertionSort` (a stable sort) on the
  lexicographic order of those keys, and `[::-1]` is `List.reverse`.
* Python exceptions (`IndexError` on out-of-range list access) appear as
  `none : Option _`.
-/

namespace Samplers

/-- Modelled from the spec: the grouping primitive
`fairseq.data.data_utils.batch_by_size` is an external collaborator that is
not part of this repository.  Per the spec contract it is "greedy, first-fit
along the given order, deterministic given identical inputs, never reorders":
walk the order, accumulate the current batch, and close it whenever adding
the next item would exceed the budget; an oversized single item still forms
its own one-item batch. -/
def groupGreedyAux (cost : Nat → Nat) (budget : Nat) :
    List Nat → List Nat → Nat → List (List Nat)
  | [], cur, _ => if cur = [] then [] else [cur.reverse]
  | i :: rest, cur, curCost =>
    if cur ≠ [] ∧ budget < curCost + cost i then
      cur.reverse :: groupGreedyAux cost budget rest [i] (cost i)
    else
      groupGreedyAux cost budget rest (i :: cur) (curCost + cost i)

/-- Modelled from the spec: entry point of the grouping primitive
(`batch_by_size(order, cost, max_tokens=budget)`). -/
def groupGreedy (order : List Nat) (cost : Nat → Nat) (budget : Nat) :
    List (List Nat) :=
  groupGreedyAux cost budget order [] 0

/-- Lexicographic comparison of the sort keys used by
`np.lexsort([tiebreak, sizes])`: primary key `sizes[i]` (missing entries
default to 0, which never occurs on the index range), secondary key the
tiebreak sequence. -/
def lexLe (sizes : List Nat) (tb : Nat → Nat) (i j : Nat) : Prop :=
  sizes.getD i 0 < sizes.getD j 0 ∨
    (sizes.getD i 0 = sizes.getD j 0 ∧ tb i ≤ tb j)

instance lexLeDec (sizes : List Nat) (tb : Nat → Nat) :
    DecidableRel (lexLe sizes tb) := fun i j => by
  unfold lexLe; infer_instance

instance lexLeTotal (sizes : List Nat) (tb : Nat → Nat) :
    IsTotal Nat (lexLe sizes tb) := ⟨by intro a b; unfold lexLe; omega⟩

instance lexLeTrans (sizes : List Nat) (tb : Nat → Nat) :
    IsTrans Nat (lexLe sizes tb) := ⟨by intro a b c; unfold lexLe; omega⟩

/-- Embedding of `np.lexsort([tiebreak_key, sizes])`: the stable ascending
sort of the index range `[0, len(sizes))` by (cost, tiebreak). -/
def lexsort (tb : Nat → Nat) (sizes : List Nat) : List Nat :=
  List.insertionSort (lexLe sizes tb) (List.range sizes.length)

/-- Embedding of `ByFrameCountSampler._get_indices`:
with shuffle the tiebreak key is `torch.randperm(N, g)` for a generator
seeded by `seed + epoch`; without shuffle it is `list(range(N))`;
`np.lexsort(order)[::-1]` reverses the stable ascending lexicographic sort. -/
def getIndices (rp : Nat → Nat → List Nat) (shuffle : Bool)
    (seed epoch : Nat) (sizes : List Nat) : List Nat :=
  let tb : Nat → Nat :=
    if shuffle then fun i => (rp (seed + epoch) sizes.length).getD i 0
    else fun i => i
  (lexsort tb sizes).reverse

/-- Embedding of `ByFrameCountSampler.__iter__`: regroup
`_get_indices()` by `batch_by_size` with cost lookup `sizes[i]` and the
stored budget `max_frames_per_gpu`. -/
def samplerIter (rp : Nat → Nat → List Nat) (shuffle : Bool)
    (seed epoch : Nat) (sizes : List Nat) (budget : Nat) :
    List (List Nat) :=
  groupGreedy (getIndices rp shuffle seed epoch sizes)
    (fun i => sizes.getD i 0) budget

/-- Embedding of the `num_batches` field precomputed by
`ByFrameCountSampler.__init__` (the sizing pass runs at `self.epoch = 0`). -/
def numBatches (rp : Nat → Nat → List Nat) (shuffle : Bool)
    (seed : Nat) (sizes : List Nat) (budget : Nat) : Nat :=
  (samplerIter rp shuffle seed 0 sizes budget).length

/-- Identity permutation oracle, a valid instantiation of the
`torch.randperm` model. -/
def rpId : Nat → Nat → List Nat := fun _ n => List.range n

/-- Rotation permutation oracle: a valid `torch.randperm` model whose output
genuinely depends on the seed. -/
def rpRot : Nat → Nat → List Nat := fun s n => (List.range n).rotateLeft s

/-- Cost of item `k` in the multilingual collection (`item[2]`); an item is
the pair `(cost, category)`. -/
def itemCost (items : List (Nat × Nat)) (k : Nat) : Nat :=
  (items.getD k (0, 0)).1

/-- Category of item `k` in the multilingual collection
(`item[3][0].item()`). -/
def itemCat (items : List (Nat × Nat)) (k : Nat) : Nat :=
  (items.getD k (0, 0)).2

/-- Embedding of `data_j = [k for k, item in enumerate(dataset.list) if
item[3][0].item() == j]`: the globally ascending indices of the items of
category `c`. -/
def datasetIdx (items : List (Nat × Nat)) (c : Nat) : List Nat :=
  (List.range items.length).filter (fun k => itemCat items k = c)

/-- Embedding of `size_j = [item[2] for item in dataset.list if
item[3][0].item() == j]`: the costs of the category-`c` items, in index
order. -/
def partSizes (items : List (Nat × Nat)) (c : Nat) : List Nat :=
  (datasetIdx items c).map (itemCost items)

/-- Embedding of `ByFrameCountSamplerMultilang._get_indices(j)`: as in the
single-language sampler, except that without shuffle the tiebreak key is
`self.dataset_idx[j]` (the global indices) rather than `range`. -/
def getIndicesML (rp : Nat → Nat → List Nat) (shuffle : Bool)
    (seed epoch : Nat) (idx szs : List Nat) : List Nat :=
  let tb : Nat → Nat :=
    if shuffle then fun i => (rp (seed + epoch) idx.length).getD i 0
    else fun i => idx.getD i 0
  (lexsort tb szs).reverse

/-- Batches contributed by the partition of category `c` in
`ByFrameCountSamplerMultilang.__iter__`: group the partition-local
permutation by `batch_by_size` with the partition-local cost lookup
`self.sizes[j][i]`, then remap each local index through
`self.dataset_idx[j]` back to a global index. -/
def partBatches (rp : Nat → Nat → List Nat) (items : List (Nat × Nat))
    (budget : Nat) (shuffle : Bool) (seed epoch c : Nat) :
    List (List Nat) :=
  let idx := datasetIdx items c
  let szs := partSizes items c
  (groupGreedy (getIndicesML rp shuffle seed epoch idx szs)
      (fun i => szs.getD i 0) budget).map
    (fun b => b.map (fun i => idx.getD i 0))

/-- Embedding of `ByFrameCountSamplerMultilang.__iter__`: the partitions
are processed for `j in range(2, max_language_token + 1)` in ascending
category order and their batch lists concatenated flat. -/
def multilangIter (rp : Nat → Nat → List Nat) (items : List (Nat × Nat))
    (budget : Nat) (shuffle : Bool) (seed epoch maxLanguageToken : Nat) :
    List (List Nat) :=
  (List.range' 2 (maxLanguageToken - 1)).flatMap
    (partBatches rp items budget shuffle seed epoch)

/-- Embedding of the `num_batches` field of
`ByFrameCountSamplerMultilang.__init__` (computed at `self.epoch = 0`;
the constructor skips empty partitions, which contribute no batches
either way). -/
def numBatchesML (rp : Nat → Nat → List Nat) (items : List (Nat × Nat))
    (budget : Nat) (shuffle : Bool) (seed maxLanguageToken : Nat) : Nat :=
  (multilangIter rp items budget shuffle seed 0 maxLanguageToken).length

/-- Embedding of `DatasetFromSampler`: `iterAt e` stands for
`list(self.sampler)` evaluated while the wrapped sampler's current epoch is
`e`; `declaredLen` is `len(self.sampler)` (the precomputed `num_batches`);
`cache` is `self.sampler_list` (`none` is Python `None`). -/
structure DFS where
  iterAt : Nat → List (List Nat)
  declaredLen : Nat
  cache : Option (List (List Nat))

/-- Embedding of `DatasetFromSampler.__getitem__(index)` with the wrapped
sampler currently at epoch `curEpoch`: materialize `list(self.sampler)`
only when `self.sampler_list is None`, then index into the cached list
(`none` models the `IndexError` of an out-of-range access). -/
def dfsGetItem (d : DFS) (curEpoch idx : Nat) : Option (List Nat) × DFS :=
  match d.cache with
  | some l => (l[idx]?, d)
  | none =>
    let l := d.iterAt curEpoch
    (l[idx]?, { d with cache := some l })

/-- Embedding of `DatasetFromSampler.__len__`: `len(self.sampler)`, the
wrapped sampler's declared (precomputed) batch count. -/
def dfsLen (d : DFS) : Nat := d.declaredLen

/-- Sequence of `__getitem__` accesses against one `DatasetFromSampler`,
threading its state and counting how many of the accesses found an empty
cache and therefore materialized `list(self.sampler)`. -/
def dfsAccessSeq (epoch : Nat) : DFS → List Nat → List (Option (List Nat)) × DFS × Nat
  | d, [] => ([], d, 0)
  | d, i :: rest =>
    let step := dfsGetItem d epoch i
    let miss : Nat := if d.cache.isNone then 1 else 0
    let next := dfsAccessSeq epoch step.2 rest
    (step.1 :: next.1, next.2.1, miss + next.2.2)

/-- Embedding of `DistributedSamplerWrapper.__iter__` and
`RandomSamplerWrapper.__iter__`: `self.dataset = DatasetFromSampler(self.sampler)`
replaces whatever dataset (`dOld`) the wrapper held with a fresh,
not-yet-materialized one, and `itemgetter(*indexes_of_indexes)` then
accesses the parent-produced `positions` one by one against it. -/
def wrapperIterModel (dOld : DFS) (samplerAt : Nat → List (List Nat))
    (declared epoch : Nat) (positions : List Nat) :
    List (Option (List Nat)) × DFS × Nat :=
  dfsAccessSeq epoch ⟨samplerAt, declared, none⟩ positions

/-- Modelled from the spec: per-shard sample count of the external
`torch.utils.data.DistributedSampler` parent (4.5): `drop_last` truncates to
an even split, otherwise the count is rounded up. -/
def distNumSamples (n k : Nat) (dropLast : Bool) : Nat :=
  if dropLast then n / k else (n + k - 1) / k

/-- Modelled from the spec: the padding policy of the external
`DistributedSampler` (4.5, `drop_last=false`): extend the index list to
`total` entries by repeating it cyclically in a deterministic pattern. -/
def distPadded (perm : List Nat) (total : Nat) : List Nat :=
  (List.range total).map (fun i => perm.getD (i % perm.length) 0)

/-- Modelled from the spec: the full per-epoch index list of the external
`DistributedSampler` after the pad/truncate policy, of length
`distNumSamples * k`. -/
def distIndices (perm : List Nat) (k : Nat) (dropLast : Bool) : List Nat :=
  let total := distNumSamples perm.length k dropLast * k
  if dropLast then perm.take total else distPadded perm total

/-- Modelled from the spec: the slice of snapshot positions assigned to
shard `r` of `k` by the external `DistributedSampler`
(`indices[rank : total_size : num_replicas]`, the strided balanced split). -/
def distShard (perm : List Nat) (k r : Nat) (dropLast : Bool) : List Nat :=
  (List.range (distNumSamples perm.length k dropLast)).map
    (fun i => (distIndices perm k dropLast).getD (r + i * k) 0)

/-- Embedding of `DistributedSamplerWrapper.__iter__` for one epoch:
the parent `DistributedSampler.__iter__` (modelled from the spec, external)
permutes the snapshot positions with a generator seeded by `seed + epoch`
(identity when not shuffling), pads/splits them, and the wrapper resolves
this shard's positions through the freshly materialized
`DatasetFromSampler` snapshot. -/
def distWrapperIter (rp : Nat → Nat → List Nat) (snapshot : List (List Nat))
    (k r : Nat) (shuffle : Bool) (seed epoch : Nat) (dropLast : Bool) :
    List (List Nat) :=
  let n := snapshot.length
  let perm := if shuffle then rp (seed + epoch) n else List.range n
  (distShard perm k r dropLast).map (fun p => snapshot.getD p [])

/-- Modelled from the spec: the rank/world-size validation performed by the
external `DistributedSampler.__init__` (4.5): a rank outside
`[0, num_shards)` is rejected with a configuration error (for
`num_shards ≤ 0` every rank is rejected). -/
def distSamplerCheck (numShards rank : Int) : Except String Unit :=
  if rank < 0 ∨ numShards ≤ rank then
    Except.error "Invalid rank, rank should be in the interval [0, num_replicas - 1]"
  else Except.ok ()

/-! ### Helper lemmas -/

theorem map_getD_range {α : Type} (l : List α) (d : α) :
    (List.range l.length).map (fun i => l.getD i d) = l := by
  apply List.ext_getElem
  · simp
  · intro i h1 h2
    simp [List.getD_eq_getElem?_getD, List.getElem?_eq_getElem h2]

theorem lexsort_perm (tb : Nat → Nat) (sizes : List Nat) :
    (lexsort tb sizes).Perm (List.range sizes.length) :=
  List.perm_insertionSort _ _

theorem getIndices_perm (rp : Nat → Nat → List Nat) (shuffle : Bool)
    (seed epoch : Nat) (sizes : List Nat) :
    (getIndices rp shuffle seed epoch sizes).Perm (List.range sizes.length) :=
  (List.reverse_perm _).trans (lexsort_perm _ _)

theorem mem_getIndices_lt (rp : Nat → Nat → List Nat) (shuffle : Bool)
    (seed epoch : Nat) (sizes : List Nat) {i : Nat}
    (h : i ∈ getIndices rp shuffle seed epoch sizes) : i < sizes.length :=
  List.mem_range.mp ((getIndices_perm rp shuffle seed epoch sizes).mem_iff.mp h)

theorem map_getD_lexsort (tb : Nat → Nat) (sizes : List Nat) :
    (lexsort tb sizes).map (fun i => sizes.getD i 0) =
      List.insertionSort (fun a b => a ≤ b) sizes := by
  refine List.eq_of_perm_of_sorted (r := fun a b : Nat => a ≤ b) ?_ ?_ ?_
  · refine List.Perm.trans ?_ (List.perm_insertionSort _ _).symm
    refine List.Perm.trans ((lexsort_perm tb sizes).map _) ?_
    exact (map_getD_range sizes 0).symm ▸ List.Perm.refl _
  · refine List.Pairwise.map _ ?_ (List.sorted_insertionSort _ _)
    intro a b hab
    rcases hab with h | ⟨h, _⟩
    · exact Nat.le_of_lt h
    · exact Nat.le_of_eq h
  · exact List.sorted_insertionSort _ _

theorem map_getD_getIndices (rp : Nat → Nat → List Nat) (shuffle : Bool)
    (seed epoch : Nat) (sizes : List Nat) :
    (getIndices rp shuffle seed epoch sizes).map (fun i => sizes.getD i 0) =
      (List.insertionSort (fun a b : Nat => a ≤ b) sizes).reverse := by
  unfold getIndices
  rw [List.map_reverse, map_getD_lexsort]

theorem groupGreedyAux_flatten (cost : Nat → Nat) (budget : Nat) :
    ∀ (order cur : List Nat) (cc : Nat),
      (groupGreedyAux cost budget order cur cc).flatten = cur.reverse ++ order
  | [], cur, cc => by
    by_cases h : cur = [] <;> simp [groupGreedyAux, h]
  | i :: rest, cur, cc => by
    unfold groupGreedyAux
    by_cases h : cur ≠ [] ∧ budget < cc + cost i
    · rw [if_pos h]
      simp [groupGreedyAux_flatten cost budget rest [i] (cost i)]
    · rw [if_neg h]
      simp [groupGreedyAux_flatten cost budget rest (i :: cur) (cc + cost i)]

theorem groupGreedy_flatten (order : List Nat) (cost : Nat → Nat)
    (budget : Nat) : (groupGreedy order cost budget).flatten = order := by
  simpa using groupGreedyAux_flatten cost budget order [] 0

theorem groupGreedyAux_sums_le (cost : Nat → Nat) (budget : Nat) :
    ∀ (order cur : List Nat),
      (∀ i ∈ order, cost i ≤ budget) → (cur.map cost).sum ≤ budget →
      ∀ b ∈ groupGreedyAux cost budget order cur ((cur.map cost).sum),
        (b.map cost).sum ≤ budget
  | [], cur, _, hcur, b, hb => by
    by_cases h : cur = []
    · simp [groupGreedyAux, h] at hb
    · simp only [groupGreedyAux, if_neg h, List.mem_singleton] at hb
      subst hb
      simpa [List.sum_reverse] using hcur
  | i :: rest, cur, horder, hcur, b, hb => by
    unfold groupGreedyAux at hb
    by_cases h : cur ≠ [] ∧ budget < (cur.map cost).sum + cost i
    · rw [if_pos h] at hb
      rcases List.mem_cons.mp hb with hb | hb
      · subst hb; simpa [List.sum_reverse] using hcur
      · have hone : (([i] : List Nat).map cost).sum = cost i := by simp
        refine groupGreedyAux_sums_le cost budget rest [i]
          (fun j hj => horder j (List.mem_cons_of_mem _ hj)) ?_ b ?_
        · rw [hone]; exact horder i (List.mem_cons_self i rest)
        · rw [hone]; exact hb
    · rw [if_neg h] at hb
      have hsum : ((i :: cur).map cost).sum = (cur.map cost).sum + cost i := by
        simp [Nat.add_comm]
      have hle : ((i :: cur).map cost).sum ≤ budget := by
        rw [hsum]
        by_cases hc : cur = []
        · subst hc; simpa using horder i (List.mem_cons_self i rest)
        · push_neg at h
          exact h hc
      refine groupGreedyAux_sums_le cost budget rest (i :: cur)
        (fun j hj => horder j (List.mem_cons_of_mem _ hj)) hle b ?_
      rw [← hsum] at hb
      exact hb

theorem groupGreedy_sums_le (order : List Nat) (cost : Nat → Nat)
    (budget : Nat) (h : ∀ i ∈ order, cost i ≤ budget) :
    ∀ b ∈ groupGreedy order cost budget, (b.map cost).sum ≤ budget := by
  intro b hb
  refine groupGreedyAux_sums_le cost budget order [] h (by simp) b ?_
  simpa using hb

theorem groupGreedyAux_length_congr (c1 c2 : Nat → Nat) (budget : Nat) :
    ∀ (order1 order2 cur1 cur2 : List Nat) (cc : Nat),
      order1.map c1 = order2.map c2 → (cur1 = [] ↔ cur2 = []) →
      (groupGreedyAux c1 budget order1 cur1 cc).length =
        (groupGreedyAux c2 budget order2 cur2 cc).length
  | [], order2, cur1, cur2, cc, hmap, hcur => by
    have h2 : order2 = [] := by
      cases order2 with
      | nil => rfl
      | cons a l => simp at hmap
    subst h2
    by_cases h : cur1 = []
    · simp [groupGreedyAux, h, hcur.mp h]
    · have h' : ¬cur2 = [] := fun hc => h (hcur.mpr hc)
      simp [groupGreedyAux, h, h']
  | i1 :: r1, order2, cur1, cur2, cc, hmap, hcur => by
    cases order2 with
    | nil => simp at hmap
    | cons i2 r2 =>
      simp only [List.map_cons, List.cons.injEq] at hmap
      obtain ⟨hc12, hrest⟩ := hmap
      unfold groupGreedyAux
      by_cases h : cur1 ≠ [] ∧ budget < cc + c1 i1
      · have h' : cur2 ≠ [] ∧ budget < cc + c2 i2 := by
          rw [← hc12]
          exact ⟨fun hc => h.1 (hcur.mpr hc), h.2⟩
        rw [if_pos h, if_pos h']
        simp only [List.length_cons]
        rw [hc12]
        exact congrArg Nat.succ
          (groupGreedyAux_length_congr c1 c2 budget r1 r2 [i1] [i2]
            (c2 i2) hrest (by simp))
      · have h' : ¬(cur2 ≠ [] ∧ budget < cc + c2 i2) := by
          rw [← hc12]
          exact fun hc => h ⟨fun hn => hc.1 (hcur.mp hn), hc.2⟩
        rw [if_neg h, if_neg h']
        rw [hc12]
        exact groupGreedyAux_length_congr c1 c2 budget r1 r2 (i1 :: cur1)
          (i2 :: cur2) (cc + c2 i2) hrest (by simp)

theorem groupGreedy_length_congr (c1 c2 : Nat → Nat) (budget : Nat)
    (order1 order2 : List Nat) (hmap : order1.map c1 = order2.map c2) :
    (groupGreedy order1 c1 budget).length =
      (groupGreedy order2 c2 budget).length :=
  groupGreedyAux_length_congr c1 c2 budget order1 order2 [] [] 0 hmap Iff.rfl

theorem getIndicesML_perm (rp : Nat → Nat → List Nat) (shuffle : Bool)
    (seed epoch : Nat) (idx szs : List Nat) :
    (getIndicesML rp shuffle seed epoch idx szs).Perm
      (List.range szs.length) :=
  (List.reverse_perm _).trans (lexsort_perm _ _)

theorem partSizes_length (items : List (Nat × Nat)) (c : Nat) :
    (partSizes items c).length = (datasetIdx items c).length :=
  List.length_map ..

theorem mem_datasetIdx (items : List (Nat × Nat)) (c k : Nat) :
    k ∈ datasetIdx items c ↔ k < items.length ∧ itemCat items k = c := by
  simp [datasetIdx, List.mem_filter, List.mem_range]

theorem partBatches_mem (rp : Nat → Nat → List Nat)
    (items : List (Nat × Nat)) (budget : Nat) (shuffle : Bool)
    (seed epoch c : Nat) {b : List Nat} {k : Nat}
    (hb : b ∈ partBatches rp items budget shuffle seed epoch c)
    (hk : k ∈ b) : k ∈ datasetIdx items c := by
  simp only [partBatches, List.mem_map] at hb
  obtain ⟨bloc, hbloc, rfl⟩ := hb
  simp only [List.mem_map] at hk
  obtain ⟨i, hi, rfl⟩ := hk
  have hflat : i ∈ (groupGreedy
      (getIndicesML rp shuffle seed epoch (datasetIdx items c)
        (partSizes items c))
      (fun i => (partSizes items c).getD i 0) budget).flatten :=
    List.mem_flatten.mpr ⟨bloc, hbloc, hi⟩
  rw [groupGreedy_flatten] at hflat
  have hlt : i < (datasetIdx items c).length := by
    have := List.mem_range.mp
      ((getIndicesML_perm rp shuffle seed epoch _ _).mem_iff.mp hflat)
    rwa [partSizes_length] at this
  rw [List.getD_eq_getElem _ _ hlt]
  exact List.getElem_mem hlt

theorem partBatches_cat (rp : Nat → Nat → List Nat)
    (items : List (Nat × Nat)) (budget : Nat) (shuffle : Bool)
    (seed epoch c : Nat) {b : List Nat} {k : Nat}
    (hb : b ∈ partBatches rp items budget shuffle seed epoch c)
    (hk : k ∈ b) : itemCat items k = c :=
  ((mem_datasetIdx items c k).mp
    (partBatches_mem rp items budget shuffle seed epoch c hb hk)).2

theorem partBatches_flatten_perm (rp : Nat → Nat → List Nat)
    (items : List (Nat × Nat)) (budget : Nat) (shuffle : Bool)
    (seed epoch c : Nat) :
    (partBatches rp items budget shuffle seed epoch c).flatten.Perm
      (datasetIdx items c) := by
  unfold partBatches
  rw [← List.map_flatten, groupGreedy_flatten]
  have h1 : (getIndicesML rp shuffle seed epoch (datasetIdx items c)
      (partSizes items c)).Perm (List.range (datasetIdx items c).length) := by
    have := getIndicesML_perm rp shuffle seed epoch (datasetIdx items c)
      (partSizes items c)
    rwa [partSizes_length] at this
  refine (h1.map _).trans ?_
  rw [map_getD_range]

theorem dfsAccessSeq_cached (epoch : Nat) (it : Nat → List (List Nat))
    (n : Nat) (l : List (List Nat)) :
    ∀ ps, dfsAccessSeq epoch ⟨it, n, some l⟩ ps =
      (ps.map (fun i => l[i]?), ⟨it, n, some l⟩, 0)
  | [] => rfl
  | i :: rest => by
    simp only [dfsAccessSeq, dfsGetItem, Option.isNone, List.map_cons]
    rw [dfsAccessSeq_cached epoch it n l rest]
    simp

theorem dfsAccessSeq_fresh (epoch : Nat) (it : Nat → List (List Nat))
    (n : Nat) (i : Nat) (rest : List Nat) :
    dfsAccessSeq epoch ⟨it, n, none⟩ (i :: rest) =
      ((i :: rest).map (fun j => (it epoch)[j]?),
        ⟨it, n, some (it epoch)⟩, 1) := by
  simp only [dfsAccessSeq, dfsGetItem, Option.isNone, List.map_cons]
  rw [dfsAccessSeq_cached epoch it n (it epoch) rest]
  simp

theorem le_numSamples_mul (n k : Nat) (hk : 0 < k) :
    n ≤ distNumSamples n k false * k := by
  rcases Nat.eq_zero_or_pos n with hn | hn
  · exact hn ▸ Nat.zero_le _
  · have h1 : distNumSamples n k false = (n - 1) / k + 1 := by
      unfold distNumSamples
      have h : n + k - 1 = (n - 1) + k := by omega
      simp [h, Nat.add_div_right _ hk]
    rw [h1]
    have h2 := Nat.lt_mul_div_succ (n - 1) hk
    have h3 : k * ((n - 1) / k + 1) = ((n - 1) / k + 1) * k := Nat.mul_comm ..
    omega

theorem flatMap_append_perm {α β : Type} (l : List α) (A B : α → List β) :
    (l.flatMap (fun r => A r ++ B r)).Perm (l.flatMap A ++ l.flatMap B) := by
  induction l with
  | nil => simp
  | cons a t ih =>
    simp only [List.flatMap_cons]
    refine List.Perm.trans (ih.append_left (A a ++ B a)) ?_
    rw [List.append_assoc, List.append_assoc]
    exact (List.perm_append_comm_assoc (B a) (t.flatMap A)
      (t.flatMap B)).append_left (A a)

theorem flatten_map_singleton {α β : Type} (l : List α) (g : α → β) :
    (l.map (fun x => [g x])).flatten = l.map g := by
  induction l with
  | nil => rfl
  | cons a t ih => simp [ih]

theorem shard_positions_perm (k : Nat) :
    ∀ m, ((List.range k).flatMap
      (fun r => (List.range m).map (fun i => r + i * k))).Perm
      (List.range (m * k))
  | 0 => by simp
  | m + 1 => by
    have hsucc : ∀ r : Nat, (List.range (m + 1)).map (fun i => r + i * k) =
        (List.range m).map (fun i => r + i * k) ++ [r + m * k] := by
      intro r
      rw [List.range_succ, List.map_append, List.map_singleton]
    simp only [hsucc]
    refine (flatMap_append_perm (List.range k) _ _).trans ?_
    have h2 : (List.range k).flatMap (fun r => [r + m * k]) =
        (List.range k).map (fun r => r + m * k) := by
      rw [List.flatMap_def, flatten_map_singleton]
    have h4 : (List.range k).map (fun r => r + m * k) =
        (List.range k).map (fun x => m * k + x) :=
      List.map_congr_left (fun a _ => Nat.add_comm a (m * k))
    have h3 : List.range ((m + 1) * k) =
        List.range (m * k) ++ (List.range k).map (fun x => m * k + x) := by
      rw [Nat.succ_mul, List.range_add]
    rw [h2, h4, h3]
    exact (shard_positions_perm k m).append_right _

theorem distShard_length (perm : List Nat) (k r : Nat) (dl : Bool) :
    (distShard perm k r dl).length = distNumSamples perm.length k dl := by
  simp [distShard]

theorem distIndices_length (perm : List Nat) (k : Nat) :
    (distIndices perm k false).length =
      distNumSamples perm.length k false * k := by
  simp [distIndices, distPadded]

theorem distPadded_getD (perm : List Nat) (total p : Nat) (hp : p < total) :
    (distPadded perm total).getD p 0 = perm.getD (p % perm.length) 0 := by
  unfold distPadded
  rw [List.getD_eq_getElem _ _ (by simpa using hp)]
  simp

theorem distUnion (snapshot : List (List Nat)) (perm : List Nat) (k : Nat)
    (hk : 0 < k) (hperm : perm.Perm (List.range snapshot.length)) :
    ∃ pads : List (List Nat),
      ((List.range k).flatMap (fun r => (distShard perm k r false).map
        (fun p => snapshot.getD p []))).Perm (snapshot ++ pads) ∧
      ∀ b ∈ pads, b ∈ snapshot := by
  have hshard : ∀ r, (distShard perm k r false).map
      (fun p => snapshot.getD p []) =
      ((List.range (distNumSamples perm.length k false)).map
        (fun i => r + i * k)).map
        (fun p => snapshot.getD ((distIndices perm k false).getD p 0) []) := by
    intro r
    rw [distShard, List.map_map, List.map_map]
    rfl
  have hmf : (List.range k).flatMap
      (fun r => ((List.range (distNumSamples perm.length k false)).map
        (fun i => r + i * k)).map
        (fun p => snapshot.getD ((distIndices perm k false).getD p 0) [])) =
      ((List.range k).flatMap
        (fun r => (List.range (distNumSamples perm.length k false)).map
          (fun i => r + i * k))).map
        (fun p => snapshot.getD ((distIndices perm k false).getD p 0) []) :=
    (List.map_flatMap _ _ _).symm
  simp only [hshard]
  rw [hmf]
  have hpos := (shard_positions_perm k (distNumSamples perm.length k false)).map
    (fun p => snapshot.getD ((distIndices perm k false).getD p 0) [])
  rcases Nat.eq_zero_or_pos perm.length with hn0 | hnpos
  · -- empty collection: everything is empty
    have hsnap : snapshot = [] := by
      have : snapshot.length = 0 := by
        rw [← List.length_range snapshot.length, ← hperm.length_eq, hn0]
      exact List.length_eq_zero.mp this
    have hm0 : distNumSamples perm.length k false = 0 := by
      rw [hn0]
      unfold distNumSamples
      simp
      exact Nat.div_eq_of_lt (by omega)
    refine ⟨[], ?_, by simp⟩
    rw [hm0, hsnap]
    simp [Function.comp_def]
  · -- main case
    have hle : perm.length ≤ distNumSamples perm.length k false * k :=
      le_numSamples_mul perm.length k hk
    have hidx : distIndices perm k false =
        distPadded perm (distNumSamples perm.length k false * k) := by
      simp [distIndices]
    have hgetD : ∀ p ∈ List.range (distNumSamples perm.length k false * k),
        snapshot.getD ((distIndices perm k false).getD p 0) [] =
        snapshot.getD (perm.getD (p % perm.length) 0) [] := by
      intro p hp
      rw [hidx, distPadded_getD perm _ p (List.mem_range.mp hp)]
    have hC : (List.range (distNumSamples perm.length k false * k)).map
        (fun p => snapshot.getD ((distIndices perm k false).getD p 0) []) =
        (List.range (distNumSamples perm.length k false * k)).map
        (fun p => snapshot.getD (perm.getD (p % perm.length) 0) []) :=
      List.map_congr_left hgetD
    have hsplit : List.range (distNumSamples perm.length k false * k) =
        List.range perm.length ++
          (List.range (distNumSamples perm.length k false * k -
            perm.length)).map (fun x => perm.length + x) := by
      have h := List.range_add perm.length
        (distNumSamples perm.length k false * k - perm.length)
      rw [show perm.length + (distNumSamples perm.length k false * k -
        perm.length) = distNumSamples perm.length k false * k from by
          omega] at h
      exact h
    have hleft : (List.range perm.length).map
        (fun p => snapshot.getD (perm.getD (p % perm.length) 0) []) =
        perm.map (fun q => snapshot.getD q []) := by
      have h1 : (List.range perm.length).map
          (fun p => snapshot.getD (perm.getD (p % perm.length) 0) []) =
          (List.range perm.length).map
            (fun p => snapshot.getD (perm.getD p 0) []) :=
        List.map_congr_left (fun p hp => by
          rw [Nat.mod_eq_of_lt (List.mem_range.mp hp)])
      have h2 : (List.range perm.length).map
          (fun p => snapshot.getD (perm.getD p 0) []) =
          ((List.range perm.length).map (fun i => perm.getD i 0)).map
            (fun q => snapshot.getD q []) := by
        rw [List.map_map]
        rfl
      rw [h1, h2, map_getD_range perm 0]
    have hsnapmap : (List.range snapshot.length).map
        (fun q => snapshot.getD q []) = snapshot := map_getD_range snapshot []
    refine ⟨((List.range (distNumSamples perm.length k false * k -
      perm.length)).map (fun x => perm.length + x)).map
        (fun p => snapshot.getD (perm.getD (p % perm.length) 0) []),
      ?_, ?_⟩
    · refine hpos.trans ?_
      rw [hC, hsplit, List.map_append]
      refine List.Perm.append_right _ ?_
      rw [hleft]
      refine (hperm.map (fun q => snapshot.getD q [])).trans ?_
      rw [hsnapmap]
    · intro b hb
      simp only [List.mem_map] at hb
      obtain ⟨p, hp, rfl⟩ := hb
      obtain ⟨x, hx, rfl⟩ := hp
      have hw : (perm.length + x) % perm.length < perm.length :=
        Nat.mod_lt _ hnpos
      have hpm : perm.getD ((perm.length + x) % perm.length) 0 ∈ perm := by
        rw [List.getD_eq_getElem _ _ hw]
        exact List.getElem_mem hw
      have hlt : perm.getD ((perm.length + x) % perm.length) 0 <
          snapshot.length :=
        List.mem_range.mp (hperm.mem_iff.mp hpm)
      rw [List.getD_eq_getElem _ _ hlt]
      exact List.getElem_mem hlt

/-! ### Claim theorems -/

/-- C1, counterexample: with `shuffle=false` and costs `[3,1,4,1,5]`,
`_get_indices` returns `[4,2,0,3,1]`, not the claimed `[4,2,0,1,3]`—
`np.lexsort(order)[::-1]` reverses the tie order too, so equal-cost items
come out in descending, not ascending, index order; the greedy grouping of
the actual order with budget 5 is `[4],[2],[0,3,1]`, not `[4],[2],[0,1,3]`. -/
theorem claim1_counterexample :
    getIndices rpId false 0 0 [3, 1, 4, 1, 5] = [4, 2, 0, 3, 1] ∧
    ([4, 2, 0, 3, 1] : List Nat) ≠ [4, 2, 0, 1, 3] ∧
    samplerIter rpId false 0 0 [3, 1, 4, 1, 5] 5 = [[4], [2], [0, 3, 1]] ∧
    ([[4], [2], [0, 3, 1]] : List (List Nat)) ≠ [[4], [2], [0, 1, 3]] := by
  decide

/-- C1, amended: with `shuffle=false`, `_get_indices` returns a permutation
of the item indices sorted by cost descending with ties in descending
(reversed identity) index order; for the 5-item collection with costs
`[3,1,4,1,5]` it returns `[4,2,0,3,1]`, and greedy grouping of that order
with budget 5 yields the batch sequence `[4],[2],[0,3,1]`. -/
theorem claim1_amended (rp : Nat → Nat → List Nat) (s e : Nat)
    (sizes : List Nat) :
    (getIndices rp false s e sizes).Perm (List.range sizes.length) ∧
    (getIndices rp false s e sizes).Pairwise
      (fun i j => sizes.getD j 0 < sizes.getD i 0 ∨
        (sizes.getD i 0 = sizes.getD j 0 ∧ j < i)) ∧
    getIndices rpId false 0 0 [3, 1, 4, 1, 5] = [4, 2, 0, 3, 1] ∧
    samplerIter rpId false 0 0 [3, 1, 4, 1, 5] 5 = [[4], [2], [0, 3, 1]] := by
  refine ⟨getIndices_perm _ _ _ _ _, ?_, by decide, by decide⟩
  have hform : getIndices rp false s e sizes =
      (lexsort (fun i => i) sizes).reverse := by
    simp [getIndices]
  rw [hform, List.pairwise_reverse]
  have hsorted : (lexsort (fun i => i) sizes).Pairwise
      (lexLe sizes (fun i => i)) := List.sorted_insertionSort _ _
  have hnodup : (lexsort (fun i => i) sizes).Nodup :=
    ((lexsort_perm _ _).nodup_iff).mpr (List.nodup_range _)
  refine (hsorted.and hnodup).imp ?_
  intro a b hab
  rcases hab with ⟨hle, hne⟩
  simp only [lexLe] at hle
  omega

/-- C2: assuming the spec's contract for the grouping primitive (modelled
by `groupGreedy`), one full `ByFrameCountSampler.__iter__` pass yields
batches whose concatenation is a permutation of `[0, N)` (every index in
exactly one batch, no duplicates, no omissions), and whenever the budget is
at least every item's cost, every batch's total cost is at most the
budget. -/
theorem claim2 (rp : Nat → Nat → List Nat) (shuffle : Bool)
    (seed epoch : Nat) (sizes : List Nat) (budget : Nat)
    (hb : ∀ i, i < sizes.length → sizes.getD i 0 ≤ budget) :
    (samplerIter rp shuffle seed epoch sizes budget).flatten.Perm
      (List.range sizes.length) ∧
    ∀ b ∈ samplerIter rp shuffle seed epoch sizes budget,
      (b.map (fun i => sizes.getD i 0)).sum ≤ budget := by
  constructor
  · rw [samplerIter, groupGreedy_flatten]
    exact getIndices_perm rp shuffle seed epoch sizes
  · intro b hbmem
    refine groupGreedy_sums_le _ _ _ ?_ b hbmem
    intro i hi
    exact hb i (mem_getIndices_lt rp shuffle seed epoch sizes hi)

/-- C2, witness: the claim instantiated at costs `[3,1,4,1,5]`, budget 5. -/
theorem claim2_witness :
    (∀ i, i < ([3, 1, 4, 1, 5] : List Nat).length →
      ([3, 1, 4, 1, 5] : List Nat).getD i 0 ≤ 5) ∧
    ((samplerIter rpId false 0 0 [3, 1, 4, 1, 5] 5).flatten.Perm
      (List.range ([3, 1, 4, 1, 5] : List Nat).length) ∧
    ∀ b ∈ samplerIter rpId false 0 0 [3, 1, 4, 1, 5] 5,
      (b.map (fun i => ([3, 1, 4, 1, 5] : List Nat).getD i 0)).sum ≤ 5) :=
  ⟨by decide, claim2 rpId false 0 0 [3, 1, 4, 1, 5] 5 (by decide)⟩

/-- C3: with `shuffle=true`, `_get_indices` is a pure function of
`seed + epoch` (the value the locally created generator is seeded with) and
the item costs: any two invocations whose `seed + epoch` agree return the
same list, and the result is a permutation of `[0, N)`; in particular two
calls with identical `(seed, epoch)` return bit-identical permutations. -/
theorem claim3 (rp : Nat → Nat → List Nat) (sizes : List Nat)
    (s e s2 e2 : Nat) (h : s + e = s2 + e2) :
    getIndices rp true s e sizes = getIndices rp true s2 e2 sizes ∧
    (getIndices rp true s e sizes).Perm (List.range sizes.length) := by
  constructor
  · simp only [getIndices]
    rw [h]
  · exact getIndices_perm _ _ _ _ _

/-- C3, witness: seeds `(1, 2)` and `(2, 1)` agree on `seed + epoch`. -/
theorem claim3_witness :
    1 + 2 = 2 + 1 ∧
    (getIndices rpRot true 1 2 [2, 2] = getIndices rpRot true 2 1 [2, 2] ∧
      (getIndices rpRot true 1 2 [2, 2]).Perm
        (List.range ([2, 2] : List Nat).length)) :=
  ⟨by decide, claim3 rpRot [2, 2] 1 2 2 1 (by decide)⟩

/-- C4, counterexample: `DatasetFromSampler` performs no consistency check
between the materialized snapshot and the declared length.  With a cached
snapshot of length 2 but declared length 1, element access (even at index
1, beyond the declared length) succeeds and returns a batch instead of
surfacing a consistency-violation error. -/
theorem claim4_counterexample :
    (dfsGetItem ⟨fun _ => [[0], [1]], 1, some [[0], [1]]⟩ 0 1).1 = some [1] ∧
    dfsLen ⟨fun _ => [[0], [1]], 1, some [[0], [1]]⟩ = 1 ∧
    ([[0], [1]] : List (List Nat)).length ≠ 1 :=
  ⟨rfl, rfl, by decide⟩

/-- C4, amended: for every epoch, a full `ByFrameCountSampler.__iter__`
pass produces exactly the declared `num_batches` batches (precomputed at
construction at epoch 0) — the cost sequence along the sorted order is the
same for every epoch, so the greedy grouping has the same shape; however
the materialized view performs no snapshot/declared-length consistency
check: element access simply indexes the cached list, ignoring the declared
length entirely, so a mismatch surfaces no consistency-violation error
(an access beyond the cache returns `none`, Python's `IndexError`; a cache
longer than the declared length is silently served). -/
theorem claim4_amended (rp : Nat → Nat → List Nat) (shuffle : Bool)
    (seed : Nat) (sizes : List Nat) (budget : Nat) :
    (∀ epoch, (samplerIter rp shuffle seed epoch sizes budget).length =
      numBatches rp shuffle seed sizes budget) ∧
    (∀ it n1 n2 l e i,
      dfsGetItem ⟨it, n1, some l⟩ e i = (l[i]?, ⟨it, n1, some l⟩) ∧
      (dfsGetItem ⟨it, n1, some l⟩ e i).1 =
        (dfsGetItem ⟨it, n2, some l⟩ e i).1) := by
  constructor
  · intro epoch
    unfold numBatches samplerIter
    apply groupGreedy_length_congr
    rw [map_getD_getIndices, map_getD_getIndices]
  · intro it n1 n2 l e i
    exact ⟨rfl, rfl⟩

/-- C9, counterexample: constructing `ByFrameCountSampler` over an empty
item collection succeeds silently with zero batches, and a non-positive
budget (0) also constructs and iterates silently, emitting a batch whose
total cost (3) exceeds the budget — no configuration error is raised for
either, contradicting the fail-fast claim. -/
theorem claim9_counterexample :
    numBatches rpId false 0 [] 5 = 0 ∧
    samplerIter rpId false 0 0 [] 5 = [] ∧
    samplerIter rpId false 0 0 [3] 0 = [[0]] ∧
    ¬(([3] : List Nat).getD 0 0 ≤ 0) := by
  decide

/-- C9, amended: only the sharded wrapper's configuration is validated:
the external `DistributedSampler.__init__` (modelled from the spec) accepts
exactly the ranks in `[0, num_shards)` — for `num_shards ≤ 0` every rank is
rejected with a configuration error; `ByFrameCountSampler` itself accepts
an empty item collection (zero batches) and a non-positive budget
(oversized items become singleton batches) without any error. -/
theorem claim9_amended :
    (∀ numShards rank : Int,
      (distSamplerCheck numShards rank).isOk = true ↔
        (0 ≤ rank ∧ rank < numShards)) ∧
    (∀ (rp : Nat → Nat → List Nat) (shuffle : Bool) (seed epoch budget : Nat),
      samplerIter rp shuffle seed epoch [] budget = []) ∧
    numBatches rpId false 0 [] 5 = 0 := by
  refine ⟨?_, ?_, by decide⟩
  · intro numShards rank
    unfold distSamplerCheck
    by_cases h : rank < 0 ∨ numShards ≤ rank
    · rw [if_pos h]
      simp only [Except.isOk, Except.toBool]
      constructor
      · intro hc; cases hc
      · intro hc; omega
    · rw [if_neg h]
      simp only [Except.isOk, Except.toBool]
      constructor
      · intro _; omega
      · intro _; trivial
  · intro rp shuffle seed epoch budget
    simp [samplerIter, getIndices, lexsort, groupGreedy, groupGreedyAux]

/-- C5: in every batch list produced by `ByFrameCountSamplerMultilang`
(construction is the `epoch = 0` instance of the same computation), all
indices within a single batch belong to items of the same category, and the
flat batch order is non-decreasing in category id: every batch of a lower
category id precedes every batch of a higher category id. -/
theorem claim5 (rp : Nat → Nat → List Nat) (items : List (Nat × Nat))
    (budget : Nat) (shuffle : Bool) (seed epoch maxLanguageToken : Nat) :
    (∀ b ∈ multilangIter rp items budget shuffle seed epoch maxLanguageToken,
      ∀ k1 ∈ b, ∀ k2 ∈ b, itemCat items k1 = itemCat items k2) ∧
    (multilangIter rp items budget shuffle seed epoch
        maxLanguageToken).Pairwise
      (fun b1 b2 => ∀ k1 ∈ b1, ∀ k2 ∈ b2,
        itemCat items k1 ≤ itemCat items k2) := by
  constructor
  · intro b hb k1 hk1 k2 hk2
    simp only [multilangIter, List.mem_flatMap] at hb
    obtain ⟨c, _, hbc⟩ := hb
    rw [partBatches_cat rp items budget shuffle seed epoch c hbc hk1,
      partBatches_cat rp items budget shuffle seed epoch c hbc hk2]
  · rw [multilangIter, List.flatMap_def, List.pairwise_flatten]
    constructor
    · intro bl hbl
      simp only [List.mem_map] at hbl
      obtain ⟨c, _, rfl⟩ := hbl
      refine List.pairwise_of_forall_mem_list ?_
      intro b1 hb1 b2 hb2 k1 hk1 k2 hk2
      rw [partBatches_cat rp items budget shuffle seed epoch c hb1 hk1,
        partBatches_cat rp items budget shuffle seed epoch c hb2 hk2]
    · rw [List.pairwise_map]
      refine (List.pairwise_lt_range' 2 (maxLanguageToken - 1) 1
        (by decide)).imp ?_
      intro c1 c2 hc b1 hb1 b2 hb2 k1 hk1 k2 hk2
      rw [partBatches_cat rp items budget shuffle seed epoch c1 hb1 hk1,
        partBatches_cat rp items budget shuffle seed epoch c2 hb2 hk2]
      exact Nat.le_of_lt hc

/-- C6: an item whose category lies outside `[2, max_language_token]`
appears in no batch of `ByFrameCountSamplerMultilang`'s output (the
embedding is a total function: the exclusion raises no error), while every
item of an in-range category appears in a batch of its (non-empty,
processed) partition. -/
theorem claim6 (rp : Nat → Nat → List Nat) (items : List (Nat × Nat))
    (budget : Nat) (shuffle : Bool) (seed epoch maxLanguageToken k : Nat) :
    (itemCat items k < 2 ∨ maxLanguageToken < itemCat items k →
      ∀ b ∈ multilangIter rp items budget shuffle seed epoch
        maxLanguageToken, k ∉ b) ∧
    (k < items.length → 2 ≤ itemCat items k →
      itemCat items k ≤ maxLanguageToken →
      ∃ b ∈ multilangIter rp items budget shuffle seed epoch
        maxLanguageToken, k ∈ b) := by
  constructor
  · intro hout b hb hk
    simp only [multilangIter, List.mem_flatMap] at hb
    obtain ⟨c, hc, hbc⟩ := hb
    have hcat := partBatches_cat rp items budget shuffle seed epoch c hbc hk
    have hcr := List.mem_range'_1.mp hc
    omega
  · intro hlt h2 hm
    have hkmem : k ∈ datasetIdx items (itemCat items k) :=
      (mem_datasetIdx items (itemCat items k) k).mpr ⟨hlt, rfl⟩
    have hkflat : k ∈ (partBatches rp items budget shuffle seed epoch
        (itemCat items k)).flatten :=
      (partBatches_flatten_perm rp items budget shuffle seed epoch
        (itemCat items k)).mem_iff.mpr hkmem
    obtain ⟨b, hb, hkb⟩ := List.mem_flatten.mp hkflat
    refine ⟨b, ?_, hkb⟩
    simp only [multilangIter, List.mem_flatMap]
    exact ⟨itemCat items k, List.mem_range'_1.mpr (by omega), hb⟩

/-- C6, witness: the spec scenario — categories in range `[2, 3]`, an
item of category 2 with costs `[2, 2]`, one of category 3 with cost `10`,
and one excluded item of category 1 with cost `1`: the category-1 item
(index 0) appears in no batch, while the category-2 item at index 1 does
appear. -/
theorem claim6_witness :
    (∀ b ∈ multilangIter rpId [(1, 1), (2, 2), (2, 2), (10, 3)] 5 false 0 0 3,
      0 ∉ b) ∧
    (∃ b ∈ multilangIter rpId [(1, 1), (2, 2), (2, 2), (10, 3)] 5 false 0 0 3,
      1 ∈ b) :=
  ⟨(claim6 rpId [(1, 1), (2, 2), (2, 2), (10, 3)] 5 false 0 0 3 0).1
      (by decide),
   (claim6 rpId [(1, 1), (2, 2), (2, 2), (10, 3)] 5 false 0 0 3 1).2
      (by decide) (by decide) (by decide)⟩

/-- C7: for every valid shard configuration (`0 < num_shards`,
`rank < num_shards`) and every epoch, each shard's iteration (modelled from
the spec for the external `DistributedSampler` parent) has the common
per-shard length, and with `drop_last=false` the union of all shards'
slices is a permutation of the full snapshot plus padding batches drawn
from the snapshot itself (the documented repetition-padding policy) — in
particular every snapshot batch reaches at least one shard, none is
silently lost. -/
theorem claim7 (rp : Nat → Nat → List Nat) (snapshot : List (List Nat))
    (k : Nat) (shuffle : Bool) (seed epoch : Nat) (hk : 0 < k)
    (hrp : (rp (seed + epoch) snapshot.length).Perm
      (List.range snapshot.length)) :
    (∀ r, r < k →
      (distWrapperIter rp snapshot k r shuffle seed epoch false).length =
        distNumSamples snapshot.length k false) ∧
    (∃ pads : List (List Nat),
      ((List.range k).flatMap
        (fun r => distWrapperIter rp snapshot k r shuffle seed epoch
          false)).Perm (snapshot ++ pads) ∧
      ∀ b ∈ pads, b ∈ snapshot) ∧
    (∀ b ∈ snapshot, ∃ r, r < k ∧
      b ∈ distWrapperIter rp snapshot k r shuffle seed epoch false) := by
  have hperm : (if shuffle then rp (seed + epoch) snapshot.length
      else List.range snapshot.length).Perm
      (List.range snapshot.length) := by
    cases shuffle
    · simp
    · simpa using hrp
  have hwr : ∀ r, distWrapperIter rp snapshot k r shuffle seed epoch false =
      (distShard (if shuffle then rp (seed + epoch) snapshot.length
        else List.range snapshot.length) k r false).map
        (fun p => snapshot.getD p []) := fun r => rfl
  have hlen : (if shuffle then rp (seed + epoch) snapshot.length
      else List.range snapshot.length).length = snapshot.length := by
    rw [hperm.length_eq, List.length_range]
  obtain ⟨pads, hp1, hp2⟩ :=
    distUnion snapshot (if shuffle then rp (seed + epoch) snapshot.length
      else List.range snapshot.length) k hk hperm
  refine ⟨?_, ⟨pads, ?_, hp2⟩, ?_⟩
  · intro r _
    rw [hwr r, List.length_map, distShard_length, hlen]
  · simp only [hwr]
    exact hp1
  · intro b hb
    have hbmem : b ∈ (List.range k).flatMap
        (fun r => distWrapperIter rp snapshot k r shuffle seed epoch
          false) := by
      simp only [hwr]
      exact hp1.mem_iff.mpr (List.mem_append_left _ hb)
    obtain ⟨r, hr, hbr⟩ := List.mem_flatMap.mp hbmem
    exact ⟨r, List.mem_range.mp hr, hbr⟩

/-- C7, witness: 3 snapshot batches over 2 shards with an epoch-shuffled
permutation. -/
theorem claim7_witness :
    ((0 : Nat) < 2 ∧ (rpRot (0 + 1) ([[0], [1], [2]] : List (List Nat)).length).Perm
      (List.range ([[0], [1], [2]] : List (List Nat)).length)) ∧
    ((∀ r, r < 2 →
      (distWrapperIter rpRot [[0], [1], [2]] 2 r true 0 1 false).length =
        distNumSamples ([[0], [1], [2]] : List (List Nat)).length 2 false) ∧
    (∃ pads : List (List Nat),
      ((List.range 2).flatMap
        (fun r => distWrapperIter rpRot [[0], [1], [2]] 2 r true 0 1
          false)).Perm ([[0], [1], [2]] ++ pads) ∧
      ∀ b ∈ pads, b ∈ ([[0], [1], [2]] : List (List Nat))) ∧
    (∀ b ∈ ([[0], [1], [2]] : List (List Nat)), ∃ r, r < 2 ∧
      b ∈ distWrapperIter rpRot [[0], [1], [2]] 2 r true 0 1 false)) :=
  ⟨⟨by decide, by decide⟩,
    claim7 rpRot [[0], [1], [2]] 2 true 0 1 (by decide) (by decide)⟩

/-- C8, counterexample: build the snapshot at epoch 0 for a shuffled
2-item sampler whose batch order genuinely differs between epochs 0 and 1
(`[[1],[0]]` vs `[[0],[1]]`).  The first element access after the wrapped
sampler's epoch has changed to 1 returns the stale epoch-0 batch `[1]`, not
the new epoch's first batch `[0]`: `DatasetFromSampler` never discards its
cache on an epoch change. -/
theorem claim8_counterexample :
    (dfsGetItem (dfsGetItem ⟨fun e => samplerIter rpRot true 0 e [1, 1] 1, 2,
        none⟩ 0 0).2 1 0).1 = some [1] ∧
    (samplerIter rpRot true 0 1 [1, 1] 1)[0]? = some [0] ∧
    (some [1] : Option (List Nat)) ≠ some [0] := by
  decide

/-- C8, amended: `DatasetFromSampler.__getitem__` materializes the wrapped
sampler's current iteration in full (never incrementally) on first access
and caches it; but the cache is never invalidated afterwards — an access
while the cache is populated returns the cached snapshot unchanged,
regardless of the wrapped sampler's current epoch.  Fresh-epoch batches
reach consumers only because the distributed/random wrappers construct a
brand-new `DatasetFromSampler` on each `__iter__` call. -/
theorem claim8_amended (it : Nat → List (List Nat)) (n e i : Nat)
    (l : List (List Nat)) :
    dfsGetItem ⟨it, n, none⟩ e i = ((it e)[i]?, ⟨it, n, some (it e)⟩) ∧
    dfsGetItem ⟨it, n, some l⟩ e i = (l[i]?, ⟨it, n, some l⟩) :=
  ⟨rfl, rfl⟩

/-- C10: each call of `DistributedSamplerWrapper.__iter__` /
`RandomSamplerWrapper.__iter__` replaces the wrapper's dataset with a
freshly constructed, not-yet-materialized `DatasetFromSampler` — the result
is independent of whatever previously materialized dataset the wrapper
held — and resolving the parent's positions against it re-materializes the
wrapped sampler's current-epoch output exactly once (a single cache miss),
after which the fresh dataset holds the current epoch's snapshot. -/
theorem claim10 (dOld dOld2 : DFS) (samplerAt : Nat → List (List Nat))
    (declared epoch : Nat) (positions : List Nat) :
    wrapperIterModel dOld samplerAt declared epoch positions =
      wrapperIterModel dOld2 samplerAt declared epoch positions ∧
    (wrapperIterModel dOld samplerAt declared epoch positions).1 =
      positions.map (fun i => (samplerAt epoch)[i]?) ∧
    (positions ≠ [] →
      (wrapperIterModel dOld samplerAt declared epoch positions).2.2 = 1 ∧
      (wrapperIterModel dOld samplerAt declared epoch
          positions).2.1.cache = some (samplerAt epoch)) := by
  refine ⟨rfl, ?_, ?_⟩
  · cases positions with
    | nil => rfl
    | cons i rest =>
      rw [wrapperIterModel, dfsAccessSeq_fresh]
  · intro hne
    cases positions with
    | nil => exact absurd rfl hne
    | cons i rest =>
      rw [wrapperIterModel, dfsAccessSeq_fresh]
      exact ⟨rfl, rfl⟩

/-- C10, witness: a wrapper holding a stale, already-materialized dataset
iterated at epoch 1 over positions `[0, 1]`: exactly one
re-materialization, and the fresh dataset caches the epoch-1 snapshot. -/
theorem claim10_witness :
    ([0, 1] : List Nat) ≠ [] ∧
    ((wrapperIterModel ⟨fun _ => [], 0, some [[9]]⟩
        (fun e => samplerIter rpRot true 0 e [1, 1] 1) 2 1 [0, 1]).2.2 = 1 ∧
      (wrapperIterModel ⟨fun _ => [], 0, some [[9]]⟩
        (fun e => samplerIter rpRot true 0 e [1, 1] 1) 2 1
          [0, 1]).2.1.cache = some (samplerIter rpRot true 0 1 [1, 1] 1)) :=
  ⟨by decide,
    (claim10 ⟨fun _ => [], 0, some [[9]]⟩ ⟨fun _ => [], 0, some [[9]]⟩
      (fun e => samplerIter rpRot true 0 e [1, 1] 1) 2 1 [0, 1]).2.2
      (by decide)⟩

end Samplers
